import Mathlib

/-!
# Verification of the `AudioAnalyzer` feature-extraction core

This file is a shallow embedding, in Lean 4, of the feature-extraction
methods of the `AudioAnalyzer` class in `src/audio/AudioEngine.js` of the
geometric-audio-visualizer repository, together with theorems settling the
specification claims about that code.

Modelling conventions:
* A `Uint8Array` buffer (magnitude spectrum, time-domain waveform) is a
  `List ℕ`; buffers hold byte values, which theorems assume (`≤ 255`) only
  where a claim needs it.
* JavaScript floating-point numbers are idealized as exact rationals (`ℚ`)
  where the source only uses field operations, and as reals (`ℝ`) where the
  source uses `Math.sqrt`, `Math.log2`, `Math.log10`, `Math.pow` or
  `Math.cos`.
* A JavaScript division `a / b` whose denominator can be zero on the actual
  control path produces `NaN` or `±Infinity`; it is modelled by
  `jsdiv a b : Option ℝ`, which is `none` exactly when `b = 0`
  (a non-finite result) and `some (a / b)` otherwise.  Divisions that the
  source itself guards (`sum > 0 ? x / sum : 0`, early returns on empty
  buffers, explicit length checks) are modelled by the same guard and plain
  total division.
* Out-of-range `Uint8Array` reads, which yield `undefined` and propagate
  `NaN` through arithmetic, are modelled by `jsget : Option ℝ`.
* The analyzer's only cross-frame state, `this.prevSpectrum`
  (`null` or a spectrum copy), is an explicit `Option (List ℕ)` value that
  stateful operations take and return.
-/

set_option maxHeartbeats 1000000

/-- JavaScript division with a possibly-zero denominator: `none` models the
non-finite result (`NaN` or `±Infinity`) produced when the denominator is
exactly zero. -/
noncomputable def jsdiv (a b : ℝ) : Option ℝ :=
  if b = 0 then none else some (a / b)

/-- JavaScript read `buf[j]` of a `Uint8Array` at a possibly out-of-range
index: `none` models the `NaN` that `undefined` becomes in arithmetic. -/
noncomputable def jsget (s : List ℕ) (j : ℤ) : Option ℝ :=
  if 0 ≤ j ∧ j < (s.length : ℤ) then some (s.getD j.toNat 0) else none

/-! ## Time-domain features: `getRMS`, `getPeak` -/

/-- The running sum of `getRMS`: for each sample, `normalized = (x - 128) / 128`
and `sum += normalized * normalized`. -/
def rmsSumSq (w : List ℕ) : ℚ :=
  ∑ i ∈ Finset.range w.length,
    ((((w.getD i 0 : ℤ) : ℚ) - 128) / 128) * ((((w.getD i 0 : ℤ) : ℚ) - 128) / 128)

/-- `AudioAnalyzer.getRMS`: root of the mean of squared normalized samples;
`0` on a missing or empty buffer. -/
noncomputable def getRMS (w : List ℕ) : ℝ :=
  if w = [] then 0 else Real.sqrt ((rmsSumSq w : ℝ) / w.length)

/-- `AudioAnalyzer.getPeak`: running maximum of `|x - 128| / 128` starting
from `0`; `0` on a missing or empty buffer. -/
def getPeak (w : List ℕ) : ℚ :=
  if w = [] then 0
  else (w.map (fun x : ℕ => (((x : ℤ) - 128).natAbs : ℚ) / 128)).foldl max 0

/-! ## Spectral centroid and spread

The spectrum argument is a `List ℚ` so that the scale-invariance claim,
which multiplies every bin by an arbitrary positive constant, can be
stated; the analyzer itself always passes byte magnitudes. -/

/-- Total magnitude `sum` accumulated by `getSpectralCentroid` /
`getSpectralSpread`. -/
def specSum (s : List ℚ) : ℚ :=
  ∑ i ∈ Finset.range s.length, s.getD i 0

/-- The `weightedSum` of `getSpectralCentroid`:
`magnitude * frequency` with `frequency = i * freqPerBin`. -/
def centroidWeightedSum (s : List ℚ) (sampleRate : ℕ) : ℚ :=
  ∑ i ∈ Finset.range s.length,
    s.getD i 0 * ((i : ℚ) * ((sampleRate : ℚ) / (s.length * 2)))

/-- `AudioAnalyzer.getSpectralCentroid`: magnitude-weighted mean of the bin
frequencies `i * freqPerBin`, `freqPerBin = sampleRate / (binCount * 2)`;
`0` on an empty buffer or when the total magnitude is not positive. -/
def getSpectralCentroid (s : List ℚ) (sampleRate : ℕ) : ℚ :=
  if s = [] then 0
  else if 0 < specSum s then centroidWeightedSum s sampleRate / specSum s else 0

/-- The `weightedVariance` of `getSpectralSpread`:
`magnitude * (frequency - centroid)²`, with the centroid recomputed. -/
def spreadWeightedVariance (s : List ℚ) (sampleRate : ℕ) : ℚ :=
  ∑ i ∈ Finset.range s.length,
    s.getD i 0 * ((i : ℚ) * ((sampleRate : ℚ) / (s.length * 2)) - getSpectralCentroid s sampleRate)
      * ((i : ℚ) * ((sampleRate : ℚ) / (s.length * 2)) - getSpectralCentroid s sampleRate)

/-- `AudioAnalyzer.getSpectralSpread`: square root of the magnitude-weighted
variance of frequency around the centroid; `0` on an empty buffer or when
the total magnitude is not positive. -/
noncomputable def getSpectralSpread (s : List ℚ) (sampleRate : ℕ) : ℝ :=
  if s = [] then 0
  else if 0 < specSum s then Real.sqrt ((spreadWeightedVariance s sampleRate / specSum s : ℚ) : ℝ)
  else 0

/-! ## Spectral flux (stateful) -/

/-- The flux accumulator: positive part of `current[i] - prev[i]`, where an
out-of-range read of `prev` makes the difference `NaN`, which fails the
`diff > 0` test and contributes `0`. -/
def fluxSum (cur prev : List ℕ) : ℚ :=
  ∑ i ∈ Finset.range cur.length,
    if i < prev.length ∧ (prev.getD i 0 : ℤ) < (cur.getD i 0 : ℤ)
    then ((cur.getD i 0 : ℤ) : ℚ) - ((prev.getD i 0 : ℤ) : ℚ) else 0

/-- `AudioAnalyzer.getSpectralFlux`: returns the flux value and the updated
`prevSpectrum` state.  An empty spectrum returns `0` and leaves the state
unchanged; a missing previous spectrum returns `0` and seeds the state with
a copy of the current spectrum; otherwise the summed positive differences
divided by the bin count, with the state replaced by the current copy. -/
def getSpectralFlux (s : List ℕ) (prev : Option (List ℕ)) : ℚ × Option (List ℕ) :=
  if s = [] then (0, prev)
  else
    match prev with
    | none => (0, some s)
    | some p => (fluxSum s p / (s.length : ℚ), some s)

/-- Modelled from the spec: `resetSession()` is described in the spec
(§4.4) but absent from the repository's source; it "clears the stored
previous spectrum (flux baseline)". -/
def resetSession (_prev : Option (List ℕ)) : Option (List ℕ) :=
  none

/-! ## Spectral entropy -/

/-- The smoothed total `sum = Σ (spectrum[i] + 1)` of `getSpectralEntropy`. -/
def entropyDenom (s : List ℕ) : ℕ :=
  ∑ i ∈ Finset.range s.length, (s.getD i 0 + 1)

/-- The entropy accumulator of `getSpectralEntropy`: `entropy -= p * log2 p`
for every bin with `p = (spectrum[i] + 1) / sum > 0`. -/
noncomputable def entropySum (s : List ℕ) : ℝ :=
  ∑ i ∈ Finset.range s.length,
    if 0 < ((s.getD i 0 : ℝ) + 1) / (entropyDenom s : ℝ)
    then -((((s.getD i 0 : ℝ) + 1) / (entropyDenom s : ℝ))
          * Real.logb 2 (((s.getD i 0 : ℝ) + 1) / (entropyDenom s : ℝ)))
    else 0

/-- `AudioAnalyzer.getSpectralEntropy`: smoothed Shannon entropy divided by
`maxEntropy = log2 binCount`.  The final division is unguarded in the
source, so a one-bin spectrum divides by `log2 1 = 0` (NaN, i.e. `none`). -/
noncomputable def getSpectralEntropy (s : List ℕ) : Option ℝ :=
  if s = [] then some 0
  else if entropyDenom s = 0 then some 0
  else jsdiv (entropySum s) (Real.logb 2 (s.length : ℝ))

/-! ## Tonality -/

/-- `totalEnergy` of `getTonality`: magnitudes of the interior bins
`1 ≤ i ≤ binCount - 2`. -/
def tonalityTotalEnergy (s : List ℕ) : ℕ :=
  ∑ i ∈ Finset.Ico 1 (s.length - 1), s.getD i 0

/-- `peakEnergy` of `getTonality`: interior bins strictly above both
neighbours and above the threshold `10`. -/
def tonalityPeakEnergy (s : List ℕ) : ℕ :=
  ∑ i ∈ Finset.Ico 1 (s.length - 1),
    if s.getD (i - 1) 0 < s.getD i 0 ∧ s.getD (i + 1) 0 < s.getD i 0 ∧ 10 < s.getD i 0
    then s.getD i 0 else 0

/-- `AudioAnalyzer.getTonality`: `min 1 (peakEnergy / totalEnergy * 3)`,
`0` on an empty buffer or when `totalEnergy` is not positive. -/
def getTonality (s : List ℕ) : ℚ :=
  if s = [] then 0
  else if 0 < tonalityTotalEnergy s
  then min 1 ((tonalityPeakEnergy s : ℚ) / (tonalityTotalEnergy s : ℚ) * 3)
  else 0

/-! ## Pitch detection (autocorrelation)

All arithmetic here is rational, so the embedding is over `ℚ`.  The loop
`for (period = minPeriod; period < Math.min(maxPeriod, bufferSize / 2); period++)`
runs over the integers `p` with `minPeriod ≤ p` and `p < maxPeriod` and
`2 * p < bufferSize` (for an integer `p`, `p < bufferSize / 2` in real
arithmetic is `2 * p < bufferSize`), i.e. over
`List.range' minPeriod (min maxPeriod ((bufferSize + 1) / 2) - minPeriod)`. -/

/-- The normalized signal of `getPitch`: `signal[i] = (timeDomain[i] - 128) / 128`. -/
def pitchSignal (w : List ℕ) (i : ℕ) : ℚ :=
  (((w.getD i 0 : ℤ) : ℚ) - 128) / 128

/-- The unnormalized autocorrelation of `getPitch` at a candidate period:
`Σ_{i < bufferSize - period} signal[i] * signal[i + period]`. -/
def pitchCorrelation (w : List ℕ) (period : ℕ) : ℚ :=
  ∑ i ∈ Finset.range (w.length - period), pitchSignal w i * pitchSignal w (i + period)

/-- The candidate periods searched by `getPitch`, in loop order. -/
def pitchPeriods (w : List ℕ) (sampleRate : ℕ) : List ℕ :=
  List.range' (sampleRate / 1000) (min (sampleRate / 50) ((w.length + 1) / 2) - sampleRate / 1000)

/-- The `bestPeriod`/`bestCorrelation` search of `getPitch`: starts at
`(0, 0)` and replaces the pair whenever `correlation > bestCorrelation`. -/
def pitchBest (w : List ℕ) (sampleRate : ℕ) : ℕ × ℚ :=
  (pitchPeriods w sampleRate).foldl
    (fun b p => if b.2 < pitchCorrelation w p then (p, pitchCorrelation w p) else b) (0, 0)

/-- `AudioAnalyzer.getPitch`: `sampleRate / bestPeriod` when a period with
positive correlation was found, otherwise `0`. -/
def getPitch (w : List ℕ) (sampleRate : ℕ) : ℚ :=
  if w = [] then 0
  else if 0 < (pitchBest w sampleRate).1
  then (sampleRate : ℚ) / ((pitchBest w sampleRate).1 : ℚ)
  else 0

/-! ## Amplitude modulation -/

/-- Number of iterations of the envelope loop
`for (i = 0; i < length - windowSize; i += windowSize)` (`windowSize = 64`);
the strict bound drops what would be the final full window. -/
def envelopeCount (n : ℕ) : ℕ :=
  if n ≤ 64 then 0 else (n - 65) / 64 + 1

/-- One envelope sample: the maximum of `|timeDomain[i + j] - 128|` over a
64-sample window starting at `start`. -/
def windowMax (w : List ℕ) (start : ℕ) : ℕ :=
  (Finset.range 64).sup fun j => ((w.getD (start + j) 0 : ℤ) - 128).natAbs

/-- The envelope list built by `getAmplitudeModulation`. -/
def envelopes (w : List ℕ) : List ℕ :=
  (List.range (envelopeCount w.length)).map fun k => windowMax w (64 * k)

/-- The mean of the envelope list. -/
def envelopeMean (w : List ℕ) : ℚ :=
  ((envelopes w).map (fun v : ℕ => (v : ℚ))).sum / ((envelopes w).length : ℚ)

/-- The variance of the envelope list around its mean. -/
def envelopeVariance (w : List ℕ) : ℚ :=
  ((envelopes w).map (fun v : ℕ => ((v : ℚ) - envelopeMean w) * ((v : ℚ) - envelopeMean w))).sum
    / ((envelopes w).length : ℚ)

/-- `AudioAnalyzer.getAmplitudeModulation`:
`min 1 (√(variance of the envelope) / 64)`, `0` on a missing or empty
buffer or when fewer than two envelope samples exist. -/
noncomputable def getAmplitudeModulation (w : List ℕ) : ℝ :=
  if w = [] then 0
  else if (envelopes w).length < 2 then 0
  else min 1 (Real.sqrt ((envelopeVariance w : ℝ)) / 64)

/-! ## Frequency modulation (stateful, via flux) -/

/-- `AudioAnalyzer.getFrequencyModulation`: `min 1 (getSpectralFlux() / 10)`;
the call re-runs the stateful flux computation, so it also returns the
updated `prevSpectrum` state. -/
def getFrequencyModulation (s : List ℕ) (prev : Option (List ℕ)) : ℚ × Option (List ℕ) :=
  (min 1 ((getSpectralFlux s prev).1 / 10), (getSpectralFlux s prev).2)

/-! ## MFCCs: mel filterbank and DCT -/

/-- `freqToMel` from `_applyMelFilterbank`: `2595 * log10 (1 + f / 700)`. -/
noncomputable def freqToMel (f : ℝ) : ℝ :=
  2595 * Real.logb 10 (1 + f / 700)

/-- `melToFreq` from `_applyMelFilterbank`: `700 * (10 ^ (m / 2595) - 1)`. -/
noncomputable def melToFreq (m : ℝ) : ℝ :=
  700 * ((10 : ℝ) ^ (m / 2595) - 1)

/-- The mel step of `_applyMelFilterbank`:
`(maxMel - minMel) / (numMelFilters + 1)` with `numMelFilters = 26`. -/
noncomputable def melStep (sampleRate : ℕ) : ℝ :=
  (freqToMel ((sampleRate : ℝ) / 2) - freqToMel 0) / (26 + 1)

/-- The `(lowBin, centerBin, highBin)` triple of the `i`-th triangular mel
filter (`centerMel = minMel + (i + 1) * melStep`, edges one step away,
`maxFreq = sampleRate / 2`). -/
noncomputable def melBins (sampleRate binCount : ℕ) (i : ℕ) : ℤ × ℤ × ℤ :=
  (⌊melToFreq ((freqToMel 0) + (i : ℝ) * melStep sampleRate)
      / ((sampleRate : ℝ) / 2) * binCount⌋,
   ⌊melToFreq ((freqToMel 0) + ((i : ℝ) + 1) * melStep sampleRate)
      / ((sampleRate : ℝ) / 2) * binCount⌋,
   ⌊melToFreq ((freqToMel 0) + ((i : ℝ) + 2) * melStep sampleRate)
      / ((sampleRate : ℝ) / 2) * binCount⌋)

/-- One step of the triangular-filter loop body: read `spectrum[j]`, compute
the ramp weight (a division whose denominator the branch condition keeps
nonzero), and accumulate `spectrum[j] * max 0 weight`. -/
noncomputable def melFilterStep (s : List ℕ) (lowBin centerBin highBin : ℤ) (sum : ℝ) (j : ℤ) :
    Option ℝ :=
  (jsget s j).bind fun v =>
    (if j < centerBin
     then jsdiv ((j : ℝ) - (lowBin : ℝ)) ((centerBin : ℝ) - (lowBin : ℝ))
     else jsdiv ((highBin : ℝ) - (j : ℝ)) ((highBin : ℝ) - (centerBin : ℝ))).map
      fun weight => sum + v * max 0 weight

/-- The triangular-filter loop of `_applyMelFilterbank`:
`for (j = lowBin; j < highBin && j < binCount; j++)`, accumulating from `0`. -/
noncomputable def melFilterSum (s : List ℕ) (lowBin centerBin highBin : ℤ) : Option ℝ :=
  (List.range (min highBin (s.length : ℤ) - lowBin).toNat).foldl
    (fun acc (k : ℕ) =>
      acc.bind fun sum => melFilterStep s lowBin centerBin highBin sum (lowBin + (k : ℤ)))
    (some 0)

/-- `AudioAnalyzer._applyMelFilterbank`: the 26 triangular-filter outputs;
`none` if any filter produced a non-finite value. -/
noncomputable def applyMelFilterbank (s : List ℕ) (sampleRate : ℕ) : Option (List ℝ) :=
  (List.range 26).mapM fun i =>
    melFilterSum s (melBins sampleRate s.length i).1 (melBins sampleRate s.length i).2.1
      (melBins sampleRate s.length i).2.2

/-- `AudioAnalyzer._dct`: type-II DCT,
`output[k] = Σ_n input[n] * cos (π * k * (n + 0.5) / N)`. -/
noncomputable def dct (input : List ℝ) (numCoeffs : ℕ) : List ℝ :=
  (List.range numCoeffs).map fun k =>
    ∑ n ∈ Finset.range input.length,
      input.getD n 0 * Real.cos (Real.pi * k * ((n : ℝ) + 0.5) / (input.length : ℝ))

/-- `AudioAnalyzer.getMFCCs`: mel filterbank, `log (value + 1)` compression,
then the first 13 DCT coefficients; a zero vector on an empty spectrum. -/
noncomputable def getMFCCs (s : List ℕ) (sampleRate : ℕ) : Option (List ℝ) :=
  if s = [] then some (List.replicate 13 0)
  else (applyMelFilterbank s sampleRate).map fun mel =>
    dct (mel.map fun v => Real.log (v + 1)) 13

/-! ## The feature record and `getAllFeatures` -/

/-- The object literal returned by `AudioAnalyzer.getAllFeatures`.  Fields
whose computation contains an unguarded division (spectral entropy) or a
weight division inside the mel filterbank are `Option`-valued: `none`
models a non-finite (NaN/Infinity) JavaScript number. -/
structure FeatureRecord where
  rms : ℝ
  peak : ℚ
  spectralCentroid : ℚ
  spectralSpread : ℝ
  spectralFlux : ℚ
  spectralEntropy : Option ℝ
  tonality : ℚ
  pitch : ℚ
  amplitudeModulation : ℝ
  frequencyModulation : ℚ
  mfccs : Option (List ℝ)

/-- `AudioAnalyzer.getAllFeatures`: assembles the record in source order.
The `spectralFlux` field runs the stateful flux once, and the
`frequencyModulation` field runs it a second time on the already-updated
state; the final state is returned alongside the record. -/
noncomputable def getAllFeatures (w s : List ℕ) (prev : Option (List ℕ)) (sampleRate : ℕ) :
    FeatureRecord × Option (List ℕ) :=
  ({ rms := getRMS w
     peak := getPeak w
     spectralCentroid := getSpectralCentroid (s.map fun x : ℕ => (x : ℚ)) sampleRate
     spectralSpread := getSpectralSpread (s.map fun x : ℕ => (x : ℚ)) sampleRate
     spectralFlux := (getSpectralFlux s prev).1
     spectralEntropy := getSpectralEntropy s
     tonality := getTonality s
     pitch := getPitch w sampleRate
     amplitudeModulation := getAmplitudeModulation w
     frequencyModulation := (getFrequencyModulation s (getSpectralFlux s prev).2).1
     mfccs := getMFCCs s sampleRate },
   (getFrequencyModulation s (getSpectralFlux s prev).2).2)

/-! ## Claim-side definition for the amplitude-modulation claim (C9)

The claim asserts that a waveform of length `k * 64` yields `k` envelope
samples; this definition follows that wording (all `k` full windows) so the
two can be compared. -/

/-- Amplitude modulation as the claim describes it: one envelope sample per
full 64-sample window (`k` windows for length `k * 64`), then standard
deviation over 64, clamped. -/
noncomputable def amplitudeModulationClaimed (w : List ℕ) : ℝ :=
  if w = [] then 0
  else if claimedEnvelopes.length < 2 then 0
  else min 1 (Real.sqrt ((claimedVariance : ℝ)) / 64)
where
  claimedEnvelopes : List ℕ := (List.range (w.length / 64)).map fun k => windowMax w (64 * k)
  claimedMean : ℚ := (claimedEnvelopes.map (fun v : ℕ => (v : ℚ))).sum / (claimedEnvelopes.length : ℚ)
  claimedVariance : ℚ :=
    (claimedEnvelopes.map (fun v : ℕ => ((v : ℚ) - claimedMean) * ((v : ℚ) - claimedMean))).sum
      / (claimedEnvelopes.length : ℚ)

/-! ## Concrete test spectrum of the spec's scenario -/

/-- The 1024-bin spectrum of the spec's scenario: all bins zero except
bin 100, which holds the maximal byte magnitude 255. -/
def binSpectrum : List ℕ :=
  (List.range 1024).map fun i => if i = 100 then 255 else 0

/-- The same spectrum with rational magnitudes, as the centroid/spread
embedding consumes it. -/
def binSpectrumQ : List ℚ :=
  binSpectrum.map fun x : ℕ => (x : ℚ)

/-! ## Basic facts about the flux state machine (claim C4) -/

/-- C4: with no stored previous spectrum — the start of a session, or the
state just after the (spec-described) reset operation cleared the baseline —
`getSpectralFlux` returns `0` for every nonempty current spectrum and seeds
the stored baseline with a copy of it; on every later frame it returns the
sum over bins of the positive differences (current minus stored previous,
with negative differences contributing `0`) divided by the bin count, and
replaces the stored baseline with a copy of the current spectrum. -/
theorem spectralFlux_first_frame_then_update (s : List ℕ) (hs : s ≠ []) :
    getSpectralFlux s none = (0, some s) ∧
    (∀ st : Option (List ℕ), getSpectralFlux s (resetSession st) = (0, some s)) ∧
    ∀ p : List ℕ, p.length = s.length →
      getSpectralFlux s (some p) =
        ((∑ i ∈ Finset.range s.length,
            max 0 (((s.getD i 0 : ℤ) : ℚ) - ((p.getD i 0 : ℤ) : ℚ))) / (s.length : ℚ),
         some s) := by
  refine ⟨by simp [getSpectralFlux, hs],
          fun st => by simp [getSpectralFlux, resetSession, hs],
          fun p hp => ?_⟩
  simp only [getSpectralFlux, if_neg hs]
  refine Prod.ext ?_ rfl
  simp only [fluxSum]
  congr 1
  refine Finset.sum_congr rfl fun i hi => ?_
  have hip : i < p.length := hp ▸ Finset.mem_range.mp hi
  by_cases hlt : (p.getD i 0 : ℤ) < (s.getD i 0 : ℤ)
  · rw [if_pos ⟨hip, hlt⟩, max_eq_right]
    have : ((p.getD i 0 : ℤ) : ℚ) < ((s.getD i 0 : ℤ) : ℚ) := by exact_mod_cast hlt
    linarith
  · rw [if_neg (by tauto), max_eq_left]
    have : ((s.getD i 0 : ℤ) : ℚ) ≤ ((p.getD i 0 : ℤ) : ℚ) := by
      exact_mod_cast not_lt.mp hlt
    linarith

/-- Witness for `spectralFlux_first_frame_then_update` at the concrete
spectrum `[10]` with stored previous `[0]`. -/
theorem spectralFlux_first_frame_then_update_witness :
    getSpectralFlux [10] none = (0, some [10]) ∧
    getSpectralFlux [10] (some [0]) =
      ((∑ i ∈ Finset.range 1,
          max 0 ((([10].getD i 0 : ℤ) : ℚ) - (([0].getD i 0 : ℤ) : ℚ))) / ((1 : ℕ) : ℚ),
       some [10]) := by
  have h := spectralFlux_first_frame_then_update [10] (by simp)
  exact ⟨h.1, h.2.2 [0] (by simp)⟩

/-! ## The frequency-modulation field of `getAllFeatures` (claim C3) -/

/-- C3 (code bug): evaluated at a frame whose stored previous spectrum is
`[0]` and whose current spectrum is `[10]`, the record returned by
`getAllFeatures` has `spectralFlux = 10` but `frequencyModulation = 0`,
not `min 1 (10 / 10) = 1` as the claim (frequency modulation is a scaled
function of the record's own flux) requires: `getFrequencyModulation`
re-runs the stateful flux computation after the `spectralFlux` field's call
has already replaced the stored baseline with the current spectrum, so the
second flux is always `0`. -/
theorem freqMod_getAllFeatures_bug :
    (getAllFeatures [] [10] (some [0]) 44100).1.spectralFlux = 10 ∧
    (getAllFeatures [] [10] (some [0]) 44100).1.frequencyModulation = 0 ∧
    min 1 ((10 : ℚ) / 10) = 1 := by
  refine ⟨?_, ?_, by norm_num⟩
  · show (getSpectralFlux [10] (some [0])).1 = 10
    simp [getSpectralFlux, fluxSum]
  · show (getFrequencyModulation [10] (getSpectralFlux [10] (some [0])).2).1 = 0
    simp [getSpectralFlux, getFrequencyModulation, fluxSum]

/-! ## Amplitude modulation (claim C9) -/

/-- The envelope loop `for (i = 0; i < n - 64; i += 64)` runs `k - 1` times
on a buffer of length `64 * k`, not `k` times: the strict bound excludes
the start index of the final full window. -/
theorem envelopeCount_mul64 (k : ℕ) : envelopeCount (64 * k) = k - 1 := by
  rw [envelopeCount]
  rcases Nat.lt_or_ge k 2 with hk | hk
  · interval_cases k <;> simp
  · rw [if_neg (by omega)]
    omega

/-- Reads into the low half of the two-window test waveform. -/
lemma twoWindow_getD_lo (j : ℕ) (hj : j < 64) :
    (List.replicate 64 (128:ℕ) ++ List.replicate 64 192).getD j 0 = 128 := by
  rw [List.getD_append _ _ _ _ (by simpa using hj)]
  rw [List.getD_eq_getElem _ _ (by simpa using hj)]
  rw [List.getElem_replicate]

/-- Reads into the high half of the two-window test waveform. -/
lemma twoWindow_getD_hi (j : ℕ) (hj : j < 64) :
    (List.replicate 64 (128:ℕ) ++ List.replicate 64 192).getD (64 + j) 0 = 192 := by
  rw [List.getD_append_right _ _ _ _ (by simp)]
  rw [List.getD_eq_getElem _ _ (by simpa using hj)]
  rw [List.getElem_replicate]

/-- The first window of the two-window test waveform is silent. -/
lemma twoWindow_max_lo : windowMax (List.replicate 64 128 ++ List.replicate 64 192) 0 = 0 := by
  rw [windowMax]
  refine Nat.le_antisymm (Finset.sup_le fun j hj => ?_) (Nat.zero_le _)
  rw [Nat.zero_add, twoWindow_getD_lo j (Finset.mem_range.mp hj)]
  decide

/-- The second window of the two-window test waveform deviates by `64`. -/
lemma twoWindow_max_hi : windowMax (List.replicate 64 128 ++ List.replicate 64 192) 64 = 64 := by
  rw [windowMax]
  have hval : ∀ j ∈ Finset.range 64,
      (((List.replicate 64 128 ++ List.replicate 64 192).getD (64 + j) 0 : ℤ) - 128).natAbs
        = 64 := by
    intro j hj
    rw [twoWindow_getD_hi j (Finset.mem_range.mp hj)]
    decide
  rw [Finset.sup_congr rfl hval]
  rw [Finset.sup_const ⟨0, Finset.mem_range.mpr (by norm_num)⟩]

/-- The claim-side envelope list of the two-window test waveform. -/
lemma twoWindow_claimedEnvelopes : amplitudeModulationClaimed.claimedEnvelopes
    (List.replicate 64 128 ++ List.replicate 64 192) = [0, 64] := by
  rw [amplitudeModulationClaimed.claimedEnvelopes]
  have hlen : (List.replicate 64 (128:ℕ) ++ List.replicate 64 192).length / 64 = 2 := by simp
  rw [hlen]
  simp only [List.range_succ, List.range_zero, List.map_append, List.map_cons, List.map_nil,
    Nat.mul_zero, Nat.mul_one, twoWindow_max_lo, twoWindow_max_hi]
  rfl

/-- C9 (counterexample): on the 128-sample waveform whose first window is
silent (`128`) and whose second window deviates by `64`, the claim's
reading (`k * 64` samples yield `k` envelope samples) predicts envelopes
`[0, 64]` and a result of `1 / 2`, but the source's loop produces a single
envelope sample, so `getAmplitudeModulation` returns `0`. -/
theorem amplitudeModulation_counterexample :
    getAmplitudeModulation (List.replicate 64 128 ++ List.replicate 64 192) = 0 ∧
    amplitudeModulationClaimed (List.replicate 64 128 ++ List.replicate 64 192) = 1 / 2 ∧
    (0 : ℝ) ≠ 1 / 2 := by
  refine ⟨?_, ?_, by norm_num⟩
  · rw [getAmplitudeModulation, if_neg (List.append_ne_nil_of_left_ne_nil (by simp) _), if_pos]
    simp only [envelopes, envelopeCount]
    norm_num
  · rw [amplitudeModulationClaimed,
      if_neg (List.append_ne_nil_of_left_ne_nil (by simp) _)]
    rw [twoWindow_claimedEnvelopes]
    rw [if_neg (by norm_num)]
    rw [amplitudeModulationClaimed.claimedVariance, amplitudeModulationClaimed.claimedMean,
      twoWindow_claimedEnvelopes]
    norm_num
    rw [show (1024:ℝ) = 32 ^ 2 by norm_num, Real.sqrt_sq (by norm_num)]
    norm_num

/-- `getAmplitudeModulation` always lands in `[0, 1]`: every branch returns
`0` or a value clamped by `min 1`. -/
lemma getAmplitudeModulation_bounds (w : List ℕ) :
    0 ≤ getAmplitudeModulation w ∧ getAmplitudeModulation w ≤ 1 := by
  rw [getAmplitudeModulation]
  split
  · norm_num
  · split
    · norm_num
    · constructor
      · exact le_min (by norm_num) (by positivity)
      · exact min_le_left _ _

/-- C9 (amended): the envelope loop of `getAmplitudeModulation` yields
`k - 1` envelope samples on a waveform of length `k * 64` (the strict loop
bound drops the final full window); with fewer than two envelope samples
(`k ≤ 2`) the result is `0`, otherwise it is the envelope's standard
deviation normalized by the fixed scale constant `64` and clamped, and the
result always lies in `[0, 1]`. -/
theorem amplitudeModulation_amended (k : ℕ) (w : List ℕ)
    (hw : w.length = 64 * k) (hk : 1 ≤ k) :
    (envelopes w).length = k - 1 ∧
    (k ≤ 2 → getAmplitudeModulation w = 0) ∧
    (3 ≤ k → getAmplitudeModulation w
        = min 1 (Real.sqrt ((envelopeVariance w : ℝ)) / 64)) ∧
    0 ≤ getAmplitudeModulation w ∧ getAmplitudeModulation w ≤ 1 := by
  have hlen : (envelopes w).length = k - 1 := by
    simp [envelopes, hw, envelopeCount_mul64]
  refine ⟨hlen, fun hk2 => ?_, fun hk3 => ?_,
    (getAmplitudeModulation_bounds w).1, (getAmplitudeModulation_bounds w).2⟩
  · rw [getAmplitudeModulation]
    split
    · rfl
    · rw [if_pos]
      omega
  · rw [getAmplitudeModulation]
    rw [if_neg (by
      intro hnil
      rw [hnil] at hw
      simp at hw
      omega)]
    rw [if_neg (by omega)]

/-- Witness for `amplitudeModulation_amended` on a 192-sample (three-window)
waveform. -/
theorem amplitudeModulation_amended_witness :
    (envelopes (List.replicate 192 128)).length = 2 ∧
    getAmplitudeModulation (List.replicate 192 128)
      = min 1 (Real.sqrt ((envelopeVariance (List.replicate 192 128) : ℝ)) / 64) := by
  have h := amplitudeModulation_amended 3 (List.replicate 192 128) (by rw [List.length_replicate]) (by norm_num)
  exact ⟨h.1, h.2.2.1 (by norm_num)⟩

/-! ## Spectral centroid: formula and the spec's scenario (claim C6) -/

/-- The scenario spectrum has 1024 bins. -/
lemma binSpectrumQ_length : binSpectrumQ.length = 1024 := by
  rw [binSpectrumQ, List.length_map, binSpectrum, List.length_map, List.length_range]

/-- Pointwise description of the scenario spectrum. -/
lemma binSpectrumQ_getD (i : ℕ) (hi : i < 1024) :
    binSpectrumQ.getD i 0 = if i = 100 then (255 : ℚ) else 0 := by
  have h1 : i < binSpectrumQ.length := by rw [binSpectrumQ_length]; exact hi
  rw [List.getD_eq_getElem _ _ h1]
  simp only [binSpectrumQ, binSpectrum, List.getElem_map, List.getElem_range]
  by_cases h100 : i = 100 <;> simp [h100]

/-- Total magnitude of the scenario spectrum. -/
lemma specSum_binSpectrumQ : specSum binSpectrumQ = 255 := by
  rw [specSum, binSpectrumQ_length]
  rw [Finset.sum_congr rfl fun i hi => binSpectrumQ_getD i (Finset.mem_range.mp hi)]
  rw [Finset.sum_ite_eq' (Finset.range 1024) 100 fun _ => (255 : ℚ)]
  rw [if_pos (Finset.mem_range.mpr (by norm_num))]

/-- Weighted magnitude sum of the scenario spectrum. -/
lemma centroidWeightedSum_binSpectrumQ :
    centroidWeightedSum binSpectrumQ 44100 = 255 * (100 * ((44100 : ℚ) / (1024 * 2))) := by
  rw [centroidWeightedSum, binSpectrumQ_length]
  push_cast
  have h : ∀ i ∈ Finset.range 1024,
      binSpectrumQ.getD i 0 * ((i : ℚ) * ((44100 : ℚ) / (1024 * 2)))
        = if i = 100 then 255 * (100 * ((44100 : ℚ) / (1024 * 2))) else 0 := by
    intro i hi
    rw [binSpectrumQ_getD i (Finset.mem_range.mp hi)]
    by_cases h100 : i = 100
    · subst h100; rw [if_pos rfl, if_pos rfl]; norm_num
    · rw [if_neg h100, if_neg h100, zero_mul]
  rw [Finset.sum_congr rfl h]
  rw [Finset.sum_ite_eq' (Finset.range 1024) 100
      fun _ => 255 * (100 * ((44100 : ℚ) / (1024 * 2)))]
  rw [if_pos (Finset.mem_range.mpr (by norm_num))]

/-- C6: `getSpectralCentroid` returns `0` instead of dividing by a zero
total magnitude; with positive total magnitude it is the magnitude-weighted
mean of the bin frequencies `i * freqPerBin`,
`freqPerBin = sampleRate / (2 * binCount)`; and on the 1024-bin spectrum
that is zero except for bin 100 = 255 at sample rate 44100 it returns
exactly `100 * 44100 / (1024 * 2)` Hz. -/
theorem spectralCentroid_spec :
    (∀ (s : List ℚ) (sr : ℕ), specSum s = 0 → getSpectralCentroid s sr = 0) ∧
    (∀ (s : List ℚ) (sr : ℕ), 0 < specSum s →
      getSpectralCentroid s sr * (∑ i ∈ Finset.range s.length, s.getD i 0)
        = ∑ i ∈ Finset.range s.length,
            s.getD i 0 * ((i : ℚ) * ((sr : ℚ) / (2 * s.length)))) ∧
    getSpectralCentroid binSpectrumQ 44100 = 100 * 44100 / (1024 * 2) := by
  refine ⟨fun s sr h => ?_, fun s sr h => ?_, ?_⟩
  · rw [getSpectralCentroid]
    split
    · rfl
    · rw [if_neg (by rw [h]; exact lt_irrefl 0)]
  · have hnil : s ≠ [] := by
      intro hn
      rw [hn] at h
      simp [specSum] at h
    rw [getSpectralCentroid, if_neg hnil, if_pos h]
    rw [show (∑ i ∈ Finset.range s.length, s.getD i 0) = specSum s from rfl]
    rw [div_mul_cancel₀ _ (ne_of_gt h)]
    rw [centroidWeightedSum]
    exact Finset.sum_congr rfl fun i _ => by ring
  · rw [getSpectralCentroid,
      if_neg (by
        intro hn
        have := binSpectrumQ_length
        rw [hn] at this
        simp at this),
      if_pos (by rw [specSum_binSpectrumQ]; norm_num)]
    rw [centroidWeightedSum_binSpectrumQ, specSum_binSpectrumQ]
    norm_num

/-- Witness for `spectralCentroid_spec` at the all-zero two-bin spectrum
and at the scenario spectrum. -/
theorem spectralCentroid_spec_witness :
    getSpectralCentroid [0, 0] 44100 = 0 ∧
    getSpectralCentroid [2, 6] 8 * (∑ i ∈ Finset.range ([2, 6] : List ℚ).length, ([2, 6] : List ℚ).getD i 0)
      = ∑ i ∈ Finset.range ([2, 6] : List ℚ).length,
          ([2, 6] : List ℚ).getD i 0 * ((i : ℚ) * ((8 : ℚ) / (2 * ([2, 6] : List ℚ).length))) := by
  constructor
  · exact spectralCentroid_spec.1 [0, 0] 44100 (by simp [specSum, Finset.sum_range_succ])
  · exact spectralCentroid_spec.2.1 [2, 6] 8 (by norm_num [specSum, Finset.sum_range_succ])

/-! ## Scale invariance of centroid and spread (claim C7) -/

/-- Reading a scaled spectrum. -/
lemma getD_map_mul (s : List ℚ) (c : ℚ) (i : ℕ) (hi : i < s.length) :
    (s.map fun x => c * x).getD i 0 = c * s.getD i 0 := by
  rw [List.getD_eq_getElem _ _ (by simpa using hi), List.getD_eq_getElem _ _ hi,
    List.getElem_map]

/-- Scaling every bin scales the total magnitude. -/
lemma specSum_map_mul (s : List ℚ) (c : ℚ) :
    specSum (s.map fun x => c * x) = c * specSum s := by
  rw [specSum, specSum, List.length_map, Finset.mul_sum]
  exact Finset.sum_congr rfl fun i hi => getD_map_mul s c i (Finset.mem_range.mp hi)

/-- Scaling every bin scales the weighted magnitude sum. -/
lemma centroidWeightedSum_map_mul (s : List ℚ) (sr : ℕ) (c : ℚ) :
    centroidWeightedSum (s.map fun x => c * x) sr = c * centroidWeightedSum s sr := by
  rw [centroidWeightedSum, centroidWeightedSum, List.length_map, Finset.mul_sum]
  refine Finset.sum_congr rfl fun i hi => ?_
  rw [getD_map_mul s c i (Finset.mem_range.mp hi)]
  ring

/-- The centroid is invariant under scaling all bins by a positive factor. -/
lemma getSpectralCentroid_map_mul (s : List ℚ) (sr : ℕ) (c : ℚ) (hc : 0 < c) :
    getSpectralCentroid (s.map fun x => c * x) sr = getSpectralCentroid s sr := by
  rw [getSpectralCentroid, getSpectralCentroid]
  by_cases hnil : s = []
  · subst hnil
    simp
  · rw [if_neg (by simpa using hnil), if_neg hnil, specSum_map_mul, centroidWeightedSum_map_mul]
    by_cases hpos : 0 < specSum s
    · rw [if_pos (mul_pos hc hpos), if_pos hpos, mul_div_mul_left _ _ (ne_of_gt hc)]
    · rw [if_neg (fun hcp => hpos ((mul_pos_iff_of_pos_left hc).mp hcp)), if_neg hpos]

/-- Scaling every bin scales the weighted variance. -/
lemma spreadWeightedVariance_map_mul (s : List ℚ) (sr : ℕ) (c : ℚ) (hc : 0 < c) :
    spreadWeightedVariance (s.map fun x => c * x) sr = c * spreadWeightedVariance s sr := by
  rw [spreadWeightedVariance, spreadWeightedVariance, List.length_map, Finset.mul_sum]
  refine Finset.sum_congr rfl fun i hi => ?_
  rw [getD_map_mul s c i (Finset.mem_range.mp hi), getSpectralCentroid_map_mul s sr c hc]
  ring

/-- C7: `getSpectralCentroid` and `getSpectralSpread` are invariant under
multiplying every spectrum bin by the same positive constant (they are pure
ratio features, in exact arithmetic on the bin values). -/
theorem centroid_spread_scale_invariance (s : List ℚ) (sr : ℕ) (c : ℚ) (hc : 0 < c) :
    getSpectralCentroid (s.map fun x => c * x) sr = getSpectralCentroid s sr ∧
    getSpectralSpread (s.map fun x => c * x) sr = getSpectralSpread s sr := by
  refine ⟨getSpectralCentroid_map_mul s sr c hc, ?_⟩
  rw [getSpectralSpread, getSpectralSpread]
  by_cases hnil : s = []
  · subst hnil
    simp
  · rw [if_neg (by simpa using hnil), if_neg hnil, specSum_map_mul,
      spreadWeightedVariance_map_mul s sr c hc]
    by_cases hpos : 0 < specSum s
    · rw [if_pos (mul_pos hc hpos), if_pos hpos, mul_div_mul_left _ _ (ne_of_gt hc)]
    · rw [if_neg (fun hcp => hpos ((mul_pos_iff_of_pos_left hc).mp hcp)), if_neg hpos]

/-- Witness for `centroid_spread_scale_invariance`: doubling the bins of a
two-bin spectrum. -/
theorem centroid_spread_scale_invariance_witness :
    getSpectralCentroid ([1, 2].map fun x => 2 * x) 44100 = getSpectralCentroid [1, 2] 44100 ∧
    getSpectralSpread ([1, 2].map fun x => 2 * x) 44100 = getSpectralSpread [1, 2] 44100 :=
  centroid_spread_scale_invariance [1, 2] 44100 2 (by norm_num)

/-! ## Pitch-search machinery (claims C5, C10 and the silence case of C2) -/

/-- The best-period fold keeps its state when no candidate strictly
improves the stored correlation. -/
lemma pitchFold_keep (f : ℕ → ℚ) (l : List ℕ) (b : ℕ × ℚ) (h : ∀ p ∈ l, f p ≤ b.2) :
    l.foldl (fun b p => if b.2 < f p then (p, f p) else b) b = b := by
  induction l with
  | nil => rfl
  | cons a t ih =>
    rw [List.foldl_cons, if_neg (not_lt.mpr (h a (List.mem_cons_self a t)))]
    exact ih fun p hp => h p (List.mem_cons_of_mem a hp)

/-- If the first searched candidate has positive correlation and no later
candidate strictly exceeds it, the fold returns the first candidate:
`correlation > bestCorrelation` is strict, so ties keep the earlier
period. -/
lemma pitchFold_first (f : ℕ → ℚ) (p₀ : ℕ) (l : List ℕ) (h0 : 0 < f p₀)
    (h : ∀ p ∈ l, f p ≤ f p₀) :
    (p₀ :: l).foldl (fun b p => if b.2 < f p then (p, f p) else b) ((0 : ℕ), (0 : ℚ))
      = (p₀, f p₀) := by
  rw [List.foldl_cons, if_pos h0]
  exact pitchFold_keep f l _ h

/-- The period produced by the fold is the initial one or a searched
candidate. -/
lemma pitchFold_mem (f : ℕ → ℚ) (l : List ℕ) :
    ∀ b : ℕ × ℚ,
      (l.foldl (fun b p => if b.2 < f p then (p, f p) else b) b).1 = b.1
      ∨ (l.foldl (fun b p => if b.2 < f p then (p, f p) else b) b).1 ∈ l := by
  induction l with
  | nil => exact fun b => Or.inl rfl
  | cons a t ih =>
    intro b
    rw [List.foldl_cons]
    by_cases hc : b.2 < f a
    · rw [if_pos hc]
      rcases ih (a, f a) with h | h
      · exact Or.inr (by rw [h]; exact List.mem_cons_self a t)
      · exact Or.inr (List.mem_cons_of_mem a h)
    · rw [if_neg hc]
      rcases ih b with h | h
      · exact Or.inl h
      · exact Or.inr (List.mem_cons_of_mem a h)

/-- Autocorrelation of a constant waveform: every product is the squared
normalized DC offset. -/
lemma pitchCorrelation_replicate (c n p : ℕ) :
    pitchCorrelation (List.replicate n c) p
      = ((n - p : ℕ) : ℚ) * ((((c : ℤ) : ℚ) - 128) / 128) * ((((c : ℤ) : ℚ) - 128) / 128) := by
  rw [pitchCorrelation]
  have hlen : (List.replicate n c).length = n := List.length_replicate n c
  rw [hlen]
  have h : ∀ i ∈ Finset.range (n - p),
      pitchSignal (List.replicate n c) i * pitchSignal (List.replicate n c) (i + p)
        = ((((c : ℤ) : ℚ) - 128) / 128) * ((((c : ℤ) : ℚ) - 128) / 128) := by
    intro i hi
    have hi' : i < n - p := Finset.mem_range.mp hi
    rw [pitchSignal, pitchSignal,
      List.getD_eq_getElem _ _ (by rw [hlen]; omega),
      List.getD_eq_getElem _ _ (by rw [hlen]; omega),
      List.getElem_replicate, List.getElem_replicate]
  rw [Finset.sum_congr rfl h, Finset.sum_const, Finset.card_range, nsmul_eq_mul]
  ring

/-- On a constant waveform with a nonzero DC offset and enough samples, the
pitch detector locks onto the smallest searched period `⌊sr / 1000⌋` and
reports `sr / ⌊sr / 1000⌋`. -/
lemma getPitch_replicate_const (c n sr : ℕ) (hc : c ≠ 128) (hsr : 1000 ≤ sr)
    (hn : 2 * (sr / 1000) < n) :
    getPitch (List.replicate n c) sr = (sr : ℚ) / ((sr / 1000 : ℕ) : ℚ) := by
  have hd0 : (((c : ℤ) : ℚ) - 128) / 128 ≠ 0 := by
    rw [div_ne_zero_iff]
    refine ⟨?_, by norm_num⟩
    intro h
    apply hc
    have h128 : ((c : ℤ) : ℚ) = 128 := by linarith
    exact_mod_cast h128
  have hdd : 0 < (((c : ℤ) : ℚ) - 128) / 128 * ((((c : ℤ) : ℚ) - 128) / 128) :=
    mul_self_pos.mpr hd0
  have hm1 : 1 ≤ sr / 1000 := (Nat.one_le_div_iff (by norm_num)).mpr hsr
  have hmlt : sr / 1000 < min (sr / 50) ((n + 1) / 2) := by
    refine lt_min ?_ ?_ <;> omega
  obtain ⟨t, ht⟩ : ∃ t, min (sr / 50) ((n + 1) / 2) - sr / 1000 = t + 1 :=
    ⟨min (sr / 50) ((n + 1) / 2) - sr / 1000 - 1, by omega⟩
  have hper : pitchPeriods (List.replicate n c) sr
      = (sr / 1000) :: List.range' (sr / 1000 + 1) t := by
    rw [pitchPeriods, List.length_replicate, ht, List.range'_succ]
  have hbest : pitchBest (List.replicate n c) sr
      = (sr / 1000, pitchCorrelation (List.replicate n c) (sr / 1000)) := by
    rw [pitchBest, hper]
    refine pitchFold_first _ _ _ ?_ ?_
    · rw [pitchCorrelation_replicate, mul_assoc]
      refine mul_pos ?_ hdd
      have : 0 < n - sr / 1000 := by omega
      exact_mod_cast this
    · intro p hp
      rw [pitchCorrelation_replicate, pitchCorrelation_replicate, mul_assoc, mul_assoc]
      have hge : sr / 1000 + 1 ≤ p := (List.mem_range'_1.mp hp).1
      refine mul_le_mul_of_nonneg_right ?_ (le_of_lt hdd)
      have : (n - p : ℕ) ≤ (n - sr / 1000 : ℕ) := by omega
      exact_mod_cast this
  rw [getPitch,
    if_neg (List.ne_nil_of_length_pos (by rw [List.length_replicate]; omega)),
    hbest, if_pos (by omega : 0 < sr / 1000)]

/-- C10: on every constant waveform whose samples all equal some `c ≠ 128`,
with more than `2 * ⌊sampleRate / 1000⌋` samples (and a sample rate of at
least 1000 Hz, which the claim's expression `sampleRate / ⌊sampleRate/1000⌋`
already presupposes), `getPitch` returns `sampleRate / ⌊sampleRate / 1000⌋`:
the nonzero DC offset makes every candidate correlation strictly positive
and strictly decreasing in the period, so the detector locks onto the
smallest searched period, unlike the centered all-silence case. -/
theorem pitch_constant_dc_offset (c n sr : ℕ) (hc : c ≠ 128) (hsr : 1000 ≤ sr)
    (hn : 2 * (sr / 1000) < n) :
    getPitch (List.replicate n c) sr = (sr : ℚ) / ((sr / 1000 : ℕ) : ℚ) :=
  getPitch_replicate_const c n sr hc hsr hn

/-- Witness for `pitch_constant_dc_offset`: 100 samples of the constant
255 at 44100 Hz give `44100 / 44` Hz. -/
theorem pitch_constant_dc_offset_witness :
    getPitch (List.replicate 100 255) 44100 = (44100 : ℚ) / 44 := by
  have h := pitch_constant_dc_offset 255 100 44100 (by norm_num) (by norm_num) (by norm_num)
  rw [h]
  norm_num

/-- Every period the search can return is either `0` or lies in the
searched half-open range. -/
lemma pitchBest_period_bounds (w : List ℕ) (sr : ℕ) :
    (pitchBest w sr).1 = 0 ∨
      (sr / 1000 ≤ (pitchBest w sr).1 ∧ (pitchBest w sr).1 < sr / 50
        ∧ 2 * (pitchBest w sr).1 < w.length + 1) := by
  rw [pitchBest, pitchPeriods]
  rcases pitchFold_mem (pitchCorrelation w)
      (List.range' (sr / 1000) (min (sr / 50) ((w.length + 1) / 2) - sr / 1000))
      ((0 : ℕ), (0 : ℚ)) with h | h
  · exact Or.inl h
  · right
    have hmem := List.mem_range'_1.mp h
    refine ⟨hmem.1, ?_, ?_⟩
    · omega
    · omega

/-- C5 (counterexample): the claim's 1000 Hz ceiling fails: at sample rate
44100, a waveform locking the smallest searched period `⌊44100/1000⌋ = 44`
yields `44100 / 44 ≈ 1002.3 > 1000` Hz. -/
theorem pitch_ceiling_counterexample :
    1000 < getPitch (List.replicate 100 255) 44100 := by
  rw [getPitch_replicate_const 255 100 44100 (by norm_num) (by norm_num) (by norm_num)]
  norm_num

/-- C5 (amended): for a sample rate of at least 1000 Hz, every nonzero
result of `getPitch` lies strictly above 50 Hz and at most
`sampleRate / ⌊sampleRate / 1000⌋` — a ceiling slightly above 1000 Hz
whenever 1000 does not divide the sample rate — and a buffer shorter than
`2 * ⌊sampleRate / 1000⌋` leaves no valid search range, so `getPitch`
returns 0. -/
theorem pitch_range_amended (w : List ℕ) (sr : ℕ) (hsr : 1000 ≤ sr) :
    (getPitch w sr ≠ 0 →
      50 < getPitch w sr ∧ getPitch w sr ≤ (sr : ℚ) / ((sr / 1000 : ℕ) : ℚ)) ∧
    (w.length < 2 * (sr / 1000) → getPitch w sr = 0) := by
  constructor
  · intro hne
    rw [getPitch] at hne ⊢
    by_cases hnil : w = []
    · rw [if_pos hnil] at hne
      exact absurd rfl hne
    rw [if_neg hnil] at hne ⊢
    by_cases hpos : 0 < (pitchBest w sr).1
    · rw [if_pos hpos] at hne ⊢
      rcases pitchBest_period_bounds w sr with h0 | ⟨hlo, hhi, _⟩
      · rw [h0] at hpos
        exact absurd hpos (lt_irrefl 0)
      · have hb0 : (0 : ℚ) < ((pitchBest w sr).1 : ℚ) := by exact_mod_cast hpos
        constructor
        · rw [lt_div_iff₀ hb0]
          have h50 : 50 * (pitchBest w sr).1 < sr := by omega
          calc (50 : ℚ) * ((pitchBest w sr).1 : ℚ) = ((50 * (pitchBest w sr).1 : ℕ) : ℚ) := by
                push_cast; ring
          _ < (sr : ℚ) := by exact_mod_cast h50
        · refine div_le_div_of_nonneg_left (by positivity) ?_ ?_
          · have : 0 < sr / 1000 := by omega
            exact_mod_cast this
          · exact_mod_cast hlo
    · rw [if_neg hpos] at hne
      exact absurd rfl hne
  · intro hshort
    rw [getPitch]
    split
    · rfl
    · rw [if_neg]
      have hempty : pitchPeriods w sr = [] := by
        rw [pitchPeriods]
        have : min (sr / 50) ((w.length + 1) / 2) - sr / 1000 = 0 := by omega
        rw [this]
        simp
      rw [pitchBest, hempty]
      exact lt_irrefl 0

/-- Witness for `pitch_range_amended`: the DC-offset waveform realizes the
nonzero branch, and a 10-sample buffer realizes the degenerate branch. -/
theorem pitch_range_amended_witness :
    (50 < getPitch (List.replicate 100 255) 44100 ∧
      getPitch (List.replicate 100 255) 44100 ≤ (44100 : ℚ) / ((44100 / 1000 : ℕ) : ℚ)) ∧
    getPitch (List.replicate 10 255) 44100 = 0 := by
  constructor
  · refine (pitch_range_amended (List.replicate 100 255) 44100 (by norm_num)).1 ?_
    rw [getPitch_replicate_const 255 100 44100 (by norm_num) (by norm_num) (by norm_num)]
    norm_num
  · exact (pitch_range_amended (List.replicate 10 255) 44100 (by norm_num)).2
      (by rw [List.length_replicate]; norm_num)

/-! ## Entropy machinery (claims C2, C8 and the entropy field of C1) -/

/-- The smoothed total is the magnitude sum plus the bin count. -/
lemma entropyDenom_eq (s : List ℕ) :
    entropyDenom s = (∑ i ∈ Finset.range s.length, s.getD i 0) + s.length := by
  rw [entropyDenom, Finset.sum_add_distrib, Finset.sum_const, Finset.card_range, smul_eq_mul,
    mul_one]

/-- A nonempty spectrum has positive smoothed total. -/
lemma entropyDenom_pos (s : List ℕ) (hs : s ≠ []) : 0 < entropyDenom s := by
  rw [entropyDenom_eq]
  have : 0 < s.length := List.length_pos.mpr hs
  omega

/-- Every smoothed bin probability is positive. -/
lemma entropy_p_pos (s : List ℕ) (hs : s ≠ []) (i : ℕ) :
    0 < ((s.getD i 0 : ℝ) + 1) / (entropyDenom s : ℝ) := by
  apply div_pos
  · positivity
  · exact_mod_cast entropyDenom_pos s hs

/-- Every smoothed bin probability is at most one. -/
lemma entropy_p_le_one (s : List ℕ) (i : ℕ) (hi : i < s.length) :
    ((s.getD i 0 : ℝ) + 1) / (entropyDenom s : ℝ) ≤ 1 := by
  have hs : s ≠ [] := List.ne_nil_of_length_pos (by omega)
  rw [div_le_one (by exact_mod_cast entropyDenom_pos s hs)]
  have h : s.getD i 0 + 1 ≤ entropyDenom s := by
    rw [entropyDenom]
    exact Finset.single_le_sum (f := fun j => s.getD j 0 + 1) (fun j _ => Nat.zero_le _)
      (Finset.mem_range.mpr hi)
  exact_mod_cast h

/-- The smoothed bin probabilities sum to one. -/
lemma entropy_p_sum (s : List ℕ) (hs : s ≠ []) :
    ∑ i ∈ Finset.range s.length, ((s.getD i 0 : ℝ) + 1) / (entropyDenom s : ℝ) = 1 := by
  rw [← Finset.sum_div,
    div_eq_one_iff_eq (by exact_mod_cast (entropyDenom_pos s hs).ne')]
  rw [entropyDenom]
  push_cast
  rfl

/-- On a nonempty spectrum the `p > 0` guard of the entropy loop is always
taken. -/
lemma entropySum_eq (s : List ℕ) (hs : s ≠ []) :
    entropySum s = ∑ i ∈ Finset.range s.length,
      -((((s.getD i 0 : ℝ) + 1) / (entropyDenom s : ℝ))
        * Real.logb 2 (((s.getD i 0 : ℝ) + 1) / (entropyDenom s : ℝ))) := by
  rw [entropySum]
  exact Finset.sum_congr rfl fun i _ => if_pos (entropy_p_pos s hs i)

/-- Gibbs' inequality for the natural-log entropy of a probability vector:
`Σ -(p log p) ≤ log n`. -/
lemma sum_neg_mul_log_le (n : ℕ) (p : ℕ → ℝ) (hp : ∀ i ∈ Finset.range n, 0 < p i)
    (hsum : ∑ i ∈ Finset.range n, p i = 1) :
    ∑ i ∈ Finset.range n, -(p i * Real.log (p i)) ≤ Real.log n := by
  have hn : 0 < n := by
    rcases Nat.eq_zero_or_pos n with h0 | h0
    · subst h0
      simp at hsum
    · exact h0
  have hn0 : ((n : ℝ)) ≠ 0 := Nat.cast_ne_zero.mpr (by omega)
  have key : ∀ i ∈ Finset.range n,
      -(p i * Real.log (p i)) - p i * Real.log n ≤ (n : ℝ)⁻¹ - p i := by
    intro i hi
    have hpi := hp i hi
    have hlog := Real.log_le_sub_one_of_pos
      (show (0 : ℝ) < ((n : ℝ) * p i)⁻¹ by positivity)
    have hlog2 : Real.log (((n : ℝ) * p i)⁻¹) = -(Real.log n + Real.log (p i)) := by
      rw [Real.log_inv, Real.log_mul hn0 (ne_of_gt hpi)]
    rw [hlog2] at hlog
    have hstep := mul_le_mul_of_nonneg_left hlog (le_of_lt hpi)
    have hinv : p i * (((n : ℝ) * p i)⁻¹ - 1) = (n : ℝ)⁻¹ - p i := by
      have hp0 : p i ≠ 0 := ne_of_gt hpi
      field_simp
      ring
    calc -(p i * Real.log (p i)) - p i * Real.log n
        = p i * (-(Real.log n + Real.log (p i))) := by ring
      _ ≤ p i * (((n : ℝ) * p i)⁻¹ - 1) := hstep
      _ = (n : ℝ)⁻¹ - p i := hinv
  have hsum2 := Finset.sum_le_sum key
  rw [Finset.sum_sub_distrib, Finset.sum_sub_distrib, ← Finset.sum_mul, hsum, one_mul,
    Finset.sum_const, Finset.card_range, nsmul_eq_mul, mul_inv_cancel₀ hn0] at hsum2
  linarith

/-- Gibbs' inequality in base 2: `Σ -(p log₂ p) ≤ log₂ n`. -/
lemma sum_neg_mul_logb_le (n : ℕ) (p : ℕ → ℝ) (hp : ∀ i ∈ Finset.range n, 0 < p i)
    (hsum : ∑ i ∈ Finset.range n, p i = 1) :
    ∑ i ∈ Finset.range n, -(p i * Real.logb 2 (p i)) ≤ Real.logb 2 n := by
  have hlog2 : 0 < Real.log 2 := Real.log_pos (by norm_num)
  have heq : ∑ i ∈ Finset.range n, -(p i * Real.logb 2 (p i))
      = (∑ i ∈ Finset.range n, -(p i * Real.log (p i))) / Real.log 2 := by
    rw [Finset.sum_div]
    exact Finset.sum_congr rfl fun i _ => by rw [Real.logb]; ring
  rw [heq, Real.logb]
  exact (div_le_div_iff_of_pos_right hlog2).mpr (sum_neg_mul_log_le n p hp hsum)

/-- The entropy accumulator is nonnegative. -/
lemma entropySum_nonneg (s : List ℕ) : 0 ≤ entropySum s := by
  rw [entropySum]
  refine Finset.sum_nonneg fun i hi => ?_
  split
  · rename_i hp
    have hs : s ≠ [] := List.ne_nil_of_length_pos (by
      have := Finset.mem_range.mp hi
      omega)
    have hple := entropy_p_le_one s i (Finset.mem_range.mp hi)
    have hlogb : Real.logb 2 (((s.getD i 0 : ℝ) + 1) / (entropyDenom s : ℝ)) ≤ 0 :=
      Real.logb_nonpos (by norm_num) (le_of_lt hp) hple
    exact neg_nonneg.mpr (mul_nonpos_of_nonneg_of_nonpos (le_of_lt hp) hlogb)
  · exact le_refl 0

/-- The entropy accumulator never exceeds `log₂ binCount`. -/
lemma entropySum_le (s : List ℕ) (hs : s ≠ []) :
    entropySum s ≤ Real.logb 2 (s.length : ℝ) := by
  rw [entropySum_eq s hs]
  exact sum_neg_mul_logb_le s.length
    (fun i => ((s.getD i 0 : ℝ) + 1) / (entropyDenom s : ℝ))
    (fun i _ => entropy_p_pos s hs i) (entropy_p_sum s hs)

/-- With at least two bins the final division is by a positive `log₂ n`,
so `getSpectralEntropy` is a finite value in `[0, 1]`. -/
lemma getSpectralEntropy_two_le (s : List ℕ) (h2 : 2 ≤ s.length) :
    getSpectralEntropy s = some (entropySum s / Real.logb 2 (s.length : ℝ)) ∧
    0 ≤ entropySum s / Real.logb 2 (s.length : ℝ) ∧
    entropySum s / Real.logb 2 (s.length : ℝ) ≤ 1 := by
  have hs : s ≠ [] := List.ne_nil_of_length_pos (by omega)
  have hlogb : 0 < Real.logb 2 (s.length : ℝ) :=
    Real.logb_pos (by norm_num) (by exact_mod_cast Nat.lt_of_lt_of_le Nat.one_lt_two h2)
  refine ⟨?_, div_nonneg (entropySum_nonneg s) (le_of_lt hlogb),
    (div_le_one hlogb).mpr (entropySum_le s hs)⟩
  rw [getSpectralEntropy, if_neg hs, if_neg (entropyDenom_pos s hs).ne', jsdiv,
    if_neg (ne_of_gt hlogb)]

/-- Reading a constant buffer. -/
lemma getD_replicate (n v i : ℕ) (hi : i < n) : (List.replicate n v).getD i 0 = v := by
  rw [List.getD_eq_getElem _ _ (by simpa using hi), List.getElem_replicate]

/-- Smoothed total of a constant spectrum. -/
lemma entropyDenom_replicate (n v : ℕ) : entropyDenom (List.replicate n v) = n * (v + 1) := by
  rw [entropyDenom, List.length_replicate]
  rw [Finset.sum_congr rfl fun i hi => by
    rw [getD_replicate n v i (Finset.mem_range.mp hi)]]
  rw [Finset.sum_const, Finset.card_range, smul_eq_mul]

/-- A flat (constant) spectrum with at least two bins has normalized
entropy exactly one: the `+1` smoothing makes every probability `1 / n`. -/
lemma entropy_uniform (n v : ℕ) (hn : 2 ≤ n) :
    getSpectralEntropy (List.replicate n v) = some 1 := by
  have hlen : (List.replicate n v).length = n := List.length_replicate n v
  have hs : List.replicate n v ≠ [] := List.ne_nil_of_length_pos (by omega)
  have hn0 : ((n : ℝ)) ≠ 0 := Nat.cast_ne_zero.mpr (by omega)
  have hv0 : ((v : ℝ)) + 1 ≠ 0 := by positivity
  have hpe : ∀ i ∈ Finset.range n,
      -(((((List.replicate n v).getD i 0 : ℝ) + 1) / (entropyDenom (List.replicate n v) : ℝ))
        * Real.logb 2
          ((((List.replicate n v).getD i 0 : ℝ) + 1) / (entropyDenom (List.replicate n v) : ℝ)))
        = (n : ℝ)⁻¹ * Real.logb 2 n := by
    intro i hi
    rw [getD_replicate n v i (Finset.mem_range.mp hi), entropyDenom_replicate]
    have hq : ((v : ℝ) + 1) / ((n * (v + 1) : ℕ) : ℝ) = (n : ℝ)⁻¹ := by
      push_cast
      field_simp
      ring
    rw [hq, Real.logb_inv]
    ring
  have hH : entropySum (List.replicate n v) = Real.logb 2 n := by
    rw [entropySum_eq _ hs, hlen, Finset.sum_congr rfl hpe, Finset.sum_const,
      Finset.card_range, nsmul_eq_mul, ← mul_assoc, mul_inv_cancel₀ hn0, one_mul]
  have h := (getSpectralEntropy_two_le (List.replicate n v) (by omega)).1
  rw [h, hlen, hH, div_self]
  exact ne_of_gt (Real.logb_pos (by norm_num) (by exact_mod_cast Nat.lt_of_lt_of_le Nat.one_lt_two hn))

/-! ## All-silence behaviour (claim C2) -/

/-- Folding `max` over silent normalized peaks stays at zero. -/
lemma foldl_max_replicate_zero (m : ℕ) :
    (List.replicate m (0 : ℚ)).foldl max 0 = 0 := by
  induction m with
  | zero => rfl
  | succ k ih => rw [List.replicate_succ, List.foldl_cons, max_self]; exact ih

/-- C2 (counterexample): on the all-zero spectrum (here with four bins) the
code returns spectral entropy `1`, not `0` as the claim states: the `+1`
smoothing turns the all-zero spectrum into the uniform distribution, whose
normalized entropy is maximal. -/
theorem silence_entropy_counterexample :
    getSpectralEntropy (List.replicate 4 0) = some 1 ∧ (1 : ℝ) ≠ 0 :=
  ⟨entropy_uniform 4 0 (by norm_num), by norm_num⟩

/-- C2 (amended): for the all-silence waveform (every sample 128) and the
all-zero spectrum (at least two bins), `getRMS`, `getPeak`,
`getSpectralFlux` (both with a stored all-zero previous spectrum and with
no stored baseline), `getTonality` and `getPitch` all return `0`, while
`getSpectralEntropy` returns `1` (maximal), not `0`, because of the `+1`
smoothing. -/
theorem silence_features_amended (m n sr : ℕ) (hn : 2 ≤ n) :
    getRMS (List.replicate m 128) = 0 ∧
    getPeak (List.replicate m 128) = 0 ∧
    (getSpectralFlux (List.replicate n 0) (some (List.replicate n 0))).1 = 0 ∧
    (getSpectralFlux (List.replicate n 0) none).1 = 0 ∧
    getTonality (List.replicate n 0) = 0 ∧
    getPitch (List.replicate m 128) sr = 0 ∧
    getSpectralEntropy (List.replicate n 0) = some 1 := by
  have hs : List.replicate n 0 ≠ [] :=
    List.ne_nil_of_length_pos (by rw [List.length_replicate]; omega)
  refine ⟨?_, ?_, ?_, ?_, ?_, ?_, entropy_uniform n 0 hn⟩
  · rw [getRMS]
    split
    · rfl
    · have hsum : rmsSumSq (List.replicate m 128) = 0 := by
        rw [rmsSumSq, List.length_replicate]
        refine Finset.sum_eq_zero fun i hi => ?_
        rw [getD_replicate m 128 i (Finset.mem_range.mp hi)]
        norm_num
      rw [hsum]
      push_cast
      rw [zero_div, Real.sqrt_zero]
  · rw [getPeak]
    split
    · rfl
    · rw [List.map_replicate,
        show ((((128 : ℕ) : ℤ) - 128).natAbs : ℚ) / 128 = 0 by norm_num]
      exact foldl_max_replicate_zero m
  · rw [getSpectralFlux, if_neg hs]
    show fluxSum (List.replicate n 0) (List.replicate n 0) / _ = 0
    have hzero : fluxSum (List.replicate n 0) (List.replicate n 0) = 0 := by
      rw [fluxSum]
      refine Finset.sum_eq_zero fun i hi => ?_
      rw [if_neg]
      intro hcond
      exact absurd hcond.2 (lt_irrefl _)
    rw [hzero, zero_div]
  · rw [getSpectralFlux, if_neg hs]
  · rw [getTonality]
    have htot : tonalityTotalEnergy (List.replicate n 0) = 0 := by
      rw [tonalityTotalEnergy, List.length_replicate]
      refine Finset.sum_eq_zero fun i hi => ?_
      have hi' := Finset.mem_Ico.mp hi
      exact getD_replicate n 0 i (by omega)
    split
    · rfl
    · rw [if_neg (by rw [htot]; exact lt_irrefl 0)]
  · rw [getPitch]
    split
    · rfl
    · rw [if_neg]
      have hcorr : ∀ p ∈ pitchPeriods (List.replicate m 128) sr,
          pitchCorrelation (List.replicate m 128) p ≤ ((0 : ℕ), (0 : ℚ)).2 := by
        intro p _
        rw [pitchCorrelation_replicate]
        norm_num
      rw [pitchBest, pitchFold_keep _ _ _ hcorr]
      exact lt_irrefl 0

/-- Witness for `silence_features_amended` at four silent samples, two
zero bins and 44100 Hz. -/
theorem silence_features_amended_witness :
    getRMS (List.replicate 4 128) = 0 ∧
    getPeak (List.replicate 4 128) = 0 ∧
    (getSpectralFlux (List.replicate 2 0) (some (List.replicate 2 0))).1 = 0 ∧
    (getSpectralFlux (List.replicate 2 0) none).1 = 0 ∧
    getTonality (List.replicate 2 0) = 0 ∧
    getPitch (List.replicate 4 128) 44100 = 0 ∧
    getSpectralEntropy (List.replicate 2 0) = some 1 :=
  silence_features_amended 4 2 44100 (by norm_num)

/-! ## Entropy of the concentrated spectrum (claim C8) -/

/-- The scenario spectrum has 1024 entries. -/
lemma binSpectrum_length : binSpectrum.length = 1024 := by
  rw [binSpectrum, List.length_map, List.length_range]

/-- Pointwise description of the scenario spectrum. -/
lemma binSpectrum_getD (i : ℕ) (hi : i < 1024) :
    binSpectrum.getD i 0 = if i = 100 then 255 else 0 := by
  have h1 : i < binSpectrum.length := by rw [binSpectrum_length]; exact hi
  rw [List.getD_eq_getElem _ _ h1]
  simp only [binSpectrum, List.getElem_map, List.getElem_range]

/-- Smoothed total of the scenario spectrum: `255 + 1024 = 1279`. -/
lemma entropyDenom_binSpectrum : entropyDenom binSpectrum = 1279 := by
  rw [entropyDenom, binSpectrum_length]
  rw [Finset.sum_congr rfl fun i hi => by
    rw [binSpectrum_getD i (Finset.mem_range.mp hi)]]
  rw [Finset.sum_add_distrib, Finset.sum_ite_eq' (Finset.range 1024) 100 fun _ => 255,
    if_pos (Finset.mem_range.mpr (by norm_num)), Finset.sum_const, Finset.card_range]
  norm_num

/-- The 1023 zero bins alone contribute `(1023 / 1279) · log₂ 1279` to the
entropy accumulator of the scenario spectrum. -/
lemma entropySum_binSpectrum_lower :
    (1023 / 1279 : ℝ) * Real.logb 2 1279 ≤ entropySum binSpectrum := by
  have hs : binSpectrum ≠ [] :=
    List.ne_nil_of_length_pos (by rw [binSpectrum_length]; norm_num)
  rw [entropySum_eq _ hs, binSpectrum_length]
  have h100 : (100 : ℕ) ∈ Finset.range 1024 := Finset.mem_range.mpr (by norm_num)
  rw [← Finset.add_sum_erase _ _ h100]
  have herase : ∀ i ∈ (Finset.range 1024).erase 100,
      -((((binSpectrum.getD i 0 : ℝ) + 1) / (entropyDenom binSpectrum : ℝ))
        * Real.logb 2 (((binSpectrum.getD i 0 : ℝ) + 1) / (entropyDenom binSpectrum : ℝ)))
        = (1279 : ℝ)⁻¹ * Real.logb 2 1279 := by
    intro i hi
    obtain ⟨hne, hmem⟩ := Finset.mem_erase.mp hi
    rw [binSpectrum_getD i (Finset.mem_range.mp hmem), if_neg hne, entropyDenom_binSpectrum]
    rw [show (((0 : ℕ) : ℝ) + 1) / ((1279 : ℕ) : ℝ) = (1279 : ℝ)⁻¹ by norm_num]
    rw [Real.logb_inv]
    ring
  rw [Finset.sum_congr rfl herase, Finset.sum_const, Finset.card_erase_of_mem h100,
    Finset.card_range]
  have hterm : 0 ≤ -((((binSpectrum.getD 100 0 : ℝ) + 1) / (entropyDenom binSpectrum : ℝ))
      * Real.logb 2 (((binSpectrum.getD 100 0 : ℝ) + 1) / (entropyDenom binSpectrum : ℝ))) := by
    have hp := entropy_p_pos binSpectrum hs 100
    have hple := entropy_p_le_one binSpectrum 100 (by rw [binSpectrum_length]; norm_num)
    exact neg_nonneg.mpr (mul_nonpos_of_nonneg_of_nonpos (le_of_lt hp)
      (Real.logb_nonpos (by norm_num) (le_of_lt hp) hple))
  have hsmul : ((1024 - 1 : ℕ) : ℕ) • ((1279 : ℝ)⁻¹ * Real.logb 2 1279)
      = (1023 / 1279 : ℝ) * Real.logb 2 1279 := by
    rw [nsmul_eq_mul]
    norm_num
    ring
  rw [hsmul]
  linarith

/-- `log₂ 1024 = 10`. -/
lemma logb_two_1024 : Real.logb 2 ((1024 : ℕ) : ℝ) = 10 := by
  rw [show ((1024 : ℕ) : ℝ) = (2 : ℝ) ^ (10 : ℕ) by norm_num, Real.logb_pow,
    Real.logb_self_eq_one (by norm_num)]
  norm_num

/-- The scenario spectrum's normalized entropy is a finite value between
`1023/1279 ≈ 0.80` and `1`. -/
lemma entropy_binSpectrum_value :
    ∃ e, getSpectralEntropy binSpectrum = some e ∧ (1023 / 1279 : ℝ) ≤ e ∧ e ≤ 1 := by
  obtain ⟨heq, _, hle⟩ :=
    getSpectralEntropy_two_le binSpectrum (by rw [binSpectrum_length]; norm_num)
  refine ⟨_, heq, ?_, hle⟩
  rw [binSpectrum_length, logb_two_1024, le_div_iff₀ (by norm_num : (0 : ℝ) < 10)]
  have hlogb1279 : (10 : ℝ) ≤ Real.logb 2 1279 := by
    rw [← logb_two_1024]
    exact Real.logb_le_logb_of_le (by norm_num) (by norm_num) (by norm_num)
  have hlower := entropySum_binSpectrum_lower
  nlinarith

/-- C8 (counterexample): the claim says the entropy of a spectrum
concentrated in a single bin (bin 100 at 255 in a 1024-bin spectrum) is
near `0`; the code's value is at least `1023 / 1279 ≈ 0.80`, in particular
at least `1 / 2`, because the `+1` smoothing leaves the 1023 zero bins with
almost all of the probability mass. -/
theorem entropy_concentration_counterexample :
    1 / 2 ≤ (getSpectralEntropy binSpectrum).getD 0 := by
  obtain ⟨e, heq, hge, _⟩ := entropy_binSpectrum_value
  rw [heq]
  simpa using le_trans (by norm_num) hge

/-- C8 (amended): `getSpectralEntropy` computes the Shannon entropy of the
`+1`-smoothed magnitude distribution normalized by `log₂ binCount`; it is
maximal (exactly `1`) for every uniform spectrum with at least two bins,
but for the spectrum concentrated in one bin (bin 100 = 255 of 1024 bins)
the smoothing keeps it high — between `1023/1279` and `1` — rather than
near `0`. -/
theorem entropy_flat_max_onehot_high :
    (∀ n v : ℕ, 2 ≤ n → getSpectralEntropy (List.replicate n v) = some 1) ∧
    ∃ e, getSpectralEntropy binSpectrum = some e ∧ (1023 / 1279 : ℝ) ≤ e ∧ e ≤ 1 :=
  ⟨fun n v hn => entropy_uniform n v hn, entropy_binSpectrum_value⟩

/-- Witness for `entropy_flat_max_onehot_high` on a flat four-bin
spectrum of magnitude five. -/
theorem entropy_flat_max_onehot_high_witness :
    getSpectralEntropy (List.replicate 4 5) = some 1 :=
  entropy_flat_max_onehot_high.1 4 5 (by norm_num)

/-! ## Finiteness and ranges of the feature record (claim C1) -/

/-- A one-bin spectrum drives the entropy normalization `log₂ 1 = 0`
into an unguarded `0 / 0`: the result is NaN (`none`). -/
lemma getSpectralEntropy_singleton (v : ℕ) : getSpectralEntropy [v] = none := by
  rw [getSpectralEntropy, if_neg (by simp), if_neg (by rw [entropyDenom]; simp), jsdiv, if_pos]
  rw [show (([v] : List ℕ).length : ℝ) = 1 by simp]
  exact Real.logb_one

/-- C1 (counterexample): on a one-bin spectrum the `spectralEntropy` field
of the record returned by `getAllFeatures` is NaN (`none`): the division by
`log₂ binCount = log₂ 1 = 0` is not guarded. -/
theorem getAllFeatures_nan_counterexample :
    (getAllFeatures [] [0] none 44100).1.spectralEntropy = none := by
  show getSpectralEntropy [0] = none
  exact getSpectralEntropy_singleton 0

/-- Each squared normalized byte sample is at most one. -/
lemma rmsSumSq_le (w : List ℕ) (hw : ∀ x ∈ w, x ≤ 255) : rmsSumSq w ≤ w.length := by
  rw [rmsSumSq]
  refine le_trans (Finset.sum_le_sum (g := fun _ => (1 : ℚ)) fun i hi => ?_)
    (by rw [Finset.sum_const, Finset.card_range, nsmul_eq_mul, mul_one])
  have hi' := Finset.mem_range.mp hi
  have hx : w.getD i 0 ≤ 255 := by
    have hmem : w.getD i 0 ∈ w := by
      rw [List.getD_eq_getElem _ _ hi']
      exact List.getElem_mem _
    exact hw _ hmem
  have h0 : (0 : ℚ) ≤ ((w.getD i 0 : ℤ) : ℚ) := by positivity
  have h255 : ((w.getD i 0 : ℤ) : ℚ) ≤ 255 := by exact_mod_cast hx
  have h1 : (-1 : ℚ) ≤ (((w.getD i 0 : ℤ) : ℚ) - 128) / 128 := by linarith
  have h2 : (((w.getD i 0 : ℤ) : ℚ) - 128) / 128 ≤ 1 := by linarith
  nlinarith

/-- `getRMS` of a byte waveform lies in `[0, 1]`. -/
lemma getRMS_bounds (w : List ℕ) (hw : ∀ x ∈ w, x ≤ 255) :
    0 ≤ getRMS w ∧ getRMS w ≤ 1 := by
  rw [getRMS]
  split
  · norm_num
  · refine ⟨Real.sqrt_nonneg _, ?_⟩
    rw [show (1 : ℝ) = Real.sqrt 1 by rw [Real.sqrt_one]]
    apply Real.sqrt_le_sqrt
    rename_i hnil
    have hlen : 0 < w.length := List.length_pos.mpr hnil
    rw [div_le_one (by exact_mod_cast hlen)]
    exact_mod_cast rmsSumSq_le w hw

/-- `getTonality` lies in `[0, 1]`. -/
lemma getTonality_bounds (s : List ℕ) : 0 ≤ getTonality s ∧ getTonality s ≤ 1 := by
  rw [getTonality]
  split
  · norm_num
  · split
    · exact ⟨le_min (by norm_num) (by positivity), min_le_left _ _⟩
    · norm_num

/-- The flux value is never negative: only positive differences are
accumulated. -/
lemma getSpectralFlux_nonneg (s : List ℕ) (prev : Option (List ℕ)) :
    0 ≤ (getSpectralFlux s prev).1 := by
  rcases prev with _ | p
  · rw [getSpectralFlux]
    split
    · exact le_refl 0
    · exact le_refl 0
  · rw [getSpectralFlux]
    split
    · exact le_refl 0
    · show 0 ≤ fluxSum s p / (s.length : ℚ)
      apply div_nonneg
      · rw [fluxSum]
        refine Finset.sum_nonneg fun i hi => ?_
        split
        · rename_i hcond
          have hlt : ((p.getD i 0 : ℤ) : ℚ) < ((s.getD i 0 : ℤ) : ℚ) := by
            exact_mod_cast hcond.2
          linarith
        · exact le_refl 0
      · positivity

/-- `getFrequencyModulation` lies in `[0, 1]`. -/
lemma getFrequencyModulation_bounds (s : List ℕ) (prev : Option (List ℕ)) :
    0 ≤ (getFrequencyModulation s prev).1 ∧ (getFrequencyModulation s prev).1 ≤ 1 := by
  rw [getFrequencyModulation]
  exact ⟨le_min (by norm_num)
      (div_nonneg (getSpectralFlux_nonneg s prev) (by norm_num)),
    min_le_left _ _⟩

/-- Away from the unguarded one-bin case, the entropy is a finite value in
`[0, 1]`. -/
lemma getSpectralEntropy_ne_one_bin (s : List ℕ) (hs1 : s.length ≠ 1) :
    ∃ e, getSpectralEntropy s = some e ∧ 0 ≤ e ∧ e ≤ 1 := by
  rcases Nat.lt_or_ge s.length 2 with h | h
  · have h0 : s.length = 0 := by omega
    have hnil : s = [] := List.length_eq_zero.mp h0
    subst hnil
    exact ⟨0, by rw [getSpectralEntropy]; simp, le_refl 0, by norm_num⟩
  · obtain ⟨heq, hnn, hle⟩ := getSpectralEntropy_two_le s h
    exact ⟨_, heq, hnn, hle⟩

/-- Folding an `Option.bind` chain over a list stays `some` when every step
is `some` from every state. -/
lemma foldl_bind_isSome {α : Type} (g : ℝ → α → Option ℝ) (l : List α)
    (h : ∀ a ∈ l, ∀ x : ℝ, (g x a).isSome) :
    ∀ x : ℝ, (l.foldl (fun acc a => acc.bind fun y => g y a) (some x)).isSome := by
  induction l with
  | nil => intro x; rfl
  | cons a t ih =>
    intro x
    rw [List.foldl_cons]
    obtain ⟨y, hy⟩ := Option.isSome_iff_exists.mp (h a (List.mem_cons_self a t) x)
    rw [show ((some x).bind fun y => g y a) = g x a from rfl, hy]
    exact ih (fun b hb x' => h b (List.mem_cons_of_mem a hb) x') y

/-- A triangular-filter step is finite whenever the loop invariant
`lowBin ≤ j < min highBin binCount` holds: the read is in range and the
taken ramp branch has a nonzero denominator. -/
lemma melFilterStep_isSome (s : List ℕ) (lb cb hb j : ℤ) (hlb : 0 ≤ lb) (hjl : lb ≤ j)
    (hjh : j < hb) (hjlen : j < (s.length : ℤ)) (x : ℝ) :
    (melFilterStep s lb cb hb x j).isSome := by
  rw [melFilterStep, jsget, if_pos ⟨le_trans hlb hjl, hjlen⟩]
  simp only [Option.some_bind]
  by_cases hc : j < cb
  · rw [if_pos hc, jsdiv, if_neg (by
      have hlbcb : (lb : ℝ) < (cb : ℝ) := by exact_mod_cast lt_of_le_of_lt hjl hc
      intro hzero
      linarith)]
    rfl
  · rw [if_neg hc, jsdiv, if_neg (by
      have hcbhb : (cb : ℝ) < (hb : ℝ) := by
        exact_mod_cast lt_of_le_of_lt (not_lt.mp hc) hjh
      intro hzero
      linarith)]
    rfl

/-- The whole triangular-filter loop is finite once `0 ≤ lowBin`. -/
lemma melFilterSum_isSome (s : List ℕ) (lb cb hb : ℤ) (hlb : 0 ≤ lb) :
    (melFilterSum s lb cb hb).isSome := by
  rw [melFilterSum]
  apply foldl_bind_isSome
  intro k hk x
  have hk' : (k : ℤ) < min hb (s.length : ℤ) - lb := by
    have := List.mem_range.mp hk
    omega
  exact melFilterStep_isSome s lb cb hb (lb + (k : ℤ)) hlb (by omega) (by omega) (by omega) x

/-- `melToFreq` is nonnegative on nonnegative mels. -/
lemma melToFreq_nonneg (m : ℝ) (hm : 0 ≤ m) : 0 ≤ melToFreq m := by
  rw [melToFreq]
  have h1 : (1 : ℝ) ≤ (10 : ℝ) ^ (m / 2595) := by
    calc (1 : ℝ) = (10 : ℝ) ^ (0 : ℝ) := by rw [Real.rpow_zero]
    _ ≤ (10 : ℝ) ^ (m / 2595) :=
      (Real.rpow_le_rpow_left_iff (by norm_num : (1 : ℝ) < 10)).mpr (by positivity)
  linarith

/-- `freqToMel 0 = 0`. -/
lemma freqToMel_zero : freqToMel 0 = 0 := by
  rw [freqToMel]
  norm_num

/-- `freqToMel` is nonnegative on nonnegative frequencies. -/
lemma freqToMel_nonneg (f : ℝ) (hf : 0 ≤ f) : 0 ≤ freqToMel f := by
  rw [freqToMel]
  have h : 0 ≤ Real.logb 10 (1 + f / 700) :=
    Real.logb_nonneg (by norm_num)
      (by linarith [div_nonneg hf (by norm_num : (0 : ℝ) ≤ 700)])
  linarith

/-- The mel step is nonnegative. -/
lemma melStep_nonneg (sr : ℕ) : 0 ≤ melStep sr := by
  rw [melStep, freqToMel_zero]
  have h := freqToMel_nonneg ((sr : ℝ) / 2) (by positivity)
  linarith [div_nonneg (by linarith : (0 : ℝ) ≤ freqToMel ((sr : ℝ) / 2) - 0)
    (by norm_num : (0 : ℝ) ≤ 26 + 1)]

/-- With a positive sample rate, every filter's `lowBin` is nonnegative,
so the loop never reads below index 0. -/
lemma melBins_lowBin_nonneg (sr binCount : ℕ) (hsr : 0 < sr) (i : ℕ) :
    0 ≤ (melBins sr binCount i).1 := by
  rw [melBins]
  apply Int.floor_nonneg.mpr
  have hsr' : (0 : ℝ) < (sr : ℝ) := by exact_mod_cast hsr
  have harg : 0 ≤ freqToMel 0 + (i : ℝ) * melStep sr := by
    rw [freqToMel_zero, zero_add]
    exact mul_nonneg (by positivity) (melStep_nonneg sr)
  have hfreq := melToFreq_nonneg _ harg
  have hdiv : 0 ≤ melToFreq (freqToMel 0 + (i : ℝ) * melStep sr) / ((sr : ℝ) / 2) :=
    div_nonneg hfreq (by linarith)
  positivity

/-- `Option.mapM` over a list is `some` when each element maps to `some`. -/
lemma mapM_option_isSome {α β : Type} (f : α → Option β) (l : List α)
    (h : ∀ a ∈ l, (f a).isSome) : (l.mapM f).isSome := by
  induction l with
  | nil => rfl
  | cons a t ih =>
    rw [List.mapM_cons]
    obtain ⟨b, hb⟩ := Option.isSome_iff_exists.mp (h a (List.mem_cons_self a t))
    obtain ⟨bs, hbs⟩ := Option.isSome_iff_exists.mp
      (ih fun a' ha' => h a' (List.mem_cons_of_mem a ha'))
    rw [hb, hbs]
    rfl

/-- The mel filterbank output is finite for every spectrum at a positive
sample rate. -/
lemma applyMelFilterbank_isSome (s : List ℕ) (sr : ℕ) (hsr : 0 < sr) :
    (applyMelFilterbank s sr).isSome := by
  rw [applyMelFilterbank]
  exact mapM_option_isSome _ _ fun i _ =>
    melFilterSum_isSome s _ _ _ (melBins_lowBin_nonneg sr s.length hsr i)

/-- `getMFCCs` always produces a finite coefficient vector at a positive
sample rate. -/
lemma getMFCCs_isSome (s : List ℕ) (sr : ℕ) (hsr : 0 < sr) :
    ∃ l, getMFCCs s sr = some l := by
  rw [getMFCCs]
  split
  · exact ⟨_, rfl⟩
  · obtain ⟨mel, hmel⟩ := Option.isSome_iff_exists.mp (applyMelFilterbank_isSome s sr hsr)
    rw [hmel]
    exact ⟨_, rfl⟩

/-- C1 (amended): for every byte waveform and spectrum buffer whose bin
count is not exactly one, at any positive sample rate and in any flux
state, the record returned by `getAllFeatures` is free of non-finite
values — in particular the `spectralEntropy` field is a finite value and
the `mfccs` vector exists (its ramp divisions and reads are guarded by the
loop structure) — and `rms`, `spectralEntropy`, `tonality`,
`amplitudeModulation` and `frequencyModulation` lie in `[0, 1]`.  (The
remaining fields are guarded divisions of finite values by construction.)
For a one-bin spectrum the claim fails: `spectralEntropy` divides by
`log₂ 1 = 0`. -/
theorem getAllFeatures_finite_amended (w s : List ℕ) (prev : Option (List ℕ)) (sr : ℕ)
    (hsr : 0 < sr) (hs1 : s.length ≠ 1) (hw : ∀ x ∈ w, x ≤ 255) :
    (0 ≤ (getAllFeatures w s prev sr).1.rms ∧ (getAllFeatures w s prev sr).1.rms ≤ 1) ∧
    (∃ e, (getAllFeatures w s prev sr).1.spectralEntropy = some e ∧ 0 ≤ e ∧ e ≤ 1) ∧
    (0 ≤ (getAllFeatures w s prev sr).1.tonality
      ∧ (getAllFeatures w s prev sr).1.tonality ≤ 1) ∧
    (0 ≤ (getAllFeatures w s prev sr).1.amplitudeModulation
      ∧ (getAllFeatures w s prev sr).1.amplitudeModulation ≤ 1) ∧
    (0 ≤ (getAllFeatures w s prev sr).1.frequencyModulation
      ∧ (getAllFeatures w s prev sr).1.frequencyModulation ≤ 1) ∧
    ∃ l, (getAllFeatures w s prev sr).1.mfccs = some l := by
  refine ⟨?_, ?_, ?_, ?_, ?_, ?_⟩
  · show 0 ≤ getRMS w ∧ getRMS w ≤ 1
    exact getRMS_bounds w hw
  · show ∃ e, getSpectralEntropy s = some e ∧ 0 ≤ e ∧ e ≤ 1
    exact getSpectralEntropy_ne_one_bin s hs1
  · show 0 ≤ getTonality s ∧ getTonality s ≤ 1
    exact getTonality_bounds s
  · show 0 ≤ getAmplitudeModulation w ∧ getAmplitudeModulation w ≤ 1
    exact getAmplitudeModulation_bounds w
  · show 0 ≤ (getFrequencyModulation s (getSpectralFlux s prev).2).1
      ∧ (getFrequencyModulation s (getSpectralFlux s prev).2).1 ≤ 1
    exact getFrequencyModulation_bounds s _
  · show ∃ l, getMFCCs s sr = some l
    exact getMFCCs_isSome s sr hsr

/-- Witness for `getAllFeatures_finite_amended` at a two-sample waveform,
a two-bin spectrum, no stored baseline and 44100 Hz. -/
theorem getAllFeatures_finite_amended_witness :
    (0 ≤ (getAllFeatures [128, 200] [0, 0] none 44100).1.rms
      ∧ (getAllFeatures [128, 200] [0, 0] none 44100).1.rms ≤ 1) ∧
    (∃ e, (getAllFeatures [128, 200] [0, 0] none 44100).1.spectralEntropy = some e
      ∧ 0 ≤ e ∧ e ≤ 1) ∧
    (0 ≤ (getAllFeatures [128, 200] [0, 0] none 44100).1.tonality
      ∧ (getAllFeatures [128, 200] [0, 0] none 44100).1.tonality ≤ 1) ∧
    (0 ≤ (getAllFeatures [128, 200] [0, 0] none 44100).1.amplitudeModulation
      ∧ (getAllFeatures [128, 200] [0, 0] none 44100).1.amplitudeModulation ≤ 1) ∧
    (0 ≤ (getAllFeatures [128, 200] [0, 0] none 44100).1.frequencyModulation
      ∧ (getAllFeatures [128, 200] [0, 0] none 44100).1.frequencyModulation ≤ 1) ∧
    ∃ l, (getAllFeatures [128, 200] [0, 0] none 44100).1.mfccs = some l :=
  getAllFeatures_finite_amended [128, 200] [0, 0] none 44100 (by norm_num) (by norm_num)
    (by decide)
